import Mathlib

/-!
Verification of the event-stream protocol handling of `amcrest/event.py`.

The embedding models, over `List Char` (the decoded character stream of the
HTTP response body):

* `eventLines` — the frame reader `_event_lines` (CRLF line framing);
* `runS` — `Event.event_stream`: the framing loop that scans lines for
  `content-length:` chunk headers and reads each announced payload by exact
  character count from the same underlying stream (the two generators in the
  Python code share one stream position, which forces the fused state-machine
  form used here);
* `kvFindAll` / `mjFindAll` — the semantics of `re.findall` for the two
  concrete patterns `_REG_PARSE_KEY_VALUE` and `_REG_PARSE_MALFORMED_JSON`,
  including the engine's lazy/greedy backtracking order;
* `buildPayload` / `actionsRun` — `Event.event_actions`.

Character classes (`\s`, `str.strip`, `str.lower`, `int`) are modelled over
ASCII, which covers the protocol's wire format.
-/

/-- The ASCII whitespace characters recognised by Python's `str.strip()` and
by the regex class `\s` (the model is restricted to ASCII). -/
def isPySpace (c : Char) : Bool :=
  c == ' ' || c == '\t' || c == '\n' || c == '\r' || c == '\x0b' || c == '\x0c'

/-- Python `str.strip()` on a character list: drop whitespace from both ends. -/
def pyStripChars (cs : List Char) : List Char :=
  ((cs.dropWhile isPySpace).reverse.dropWhile isPySpace).reverse

/-- Python `str.strip()`. -/
def pyStrip (s : String) : String := ⟨pyStripChars s.data⟩

/-- Python `line.lower().startswith("content-length:")`, the chunk-header
test of `Event.event_stream` (ASCII lowering). -/
def isHeaderLine (cs : List Char) : Bool :=
  "content-length:".data.isPrefixOf (cs.map Char.toLower)

/-- Python `str.split(":")`: split at every colon. -/
def splitOnColon : List Char → List (List Char)
  | [] => [[]]
  | c :: rest =>
    if c = ':' then [] :: splitOnColon rest
    else
      match splitOnColon rest with
      | s :: ss => (c :: s) :: ss
      | [] => [[c]]

/-- Python `line.split(":")[1]`.  In `event_stream` this access is guarded by
the `content-length:` prefix test, which guarantees the colon exists; the
default is never taken on guarded inputs. -/
def splitColonSecond (cs : List Char) : List Char :=
  (splitOnColon cs).getD 1 []

/-- Digit run of Python `int(str)` after the first digit: digits with single
underscores allowed only between digits. -/
def pyDigitsGo : List Char → Nat → Option Nat
  | [], acc => some acc
  | c :: rest, acc =>
    if c.isDigit then pyDigitsGo rest (acc * 10 + (c.toNat - 48))
    else if c = '_' then
      match rest with
      | [] => none
      | d :: rest2 =>
        if d.isDigit then pyDigitsGo rest2 (acc * 10 + (d.toNat - 48))
        else none
    else none

/-- Nonempty digit run of Python `int(str)`; must start with a digit. -/
def pyDigits : List Char → Option Nat
  | [] => none
  | c :: rest => if c.isDigit then pyDigitsGo rest (c.toNat - 48) else none

/-- Python `int(s)` on a string: surrounding whitespace is stripped, an
optional single sign is accepted (so negative inputs parse successfully),
then a nonempty digit run.  `none` models the `ValueError` raised otherwise. -/
def pyIntC (cs : List Char) : Option Int :=
  match pyStripChars cs with
  | '+' :: rest => (pyDigits rest).map (fun n => (n : Int))
  | '-' :: rest => (pyDigits rest).map (fun n => -(n : Int))
  | rest => (pyDigits rest).map (fun n => (n : Int))

/-- Test on the reversed buffer: true iff the original buffer ends in CR LF. -/
def endsCRLFrev : List Char → Bool
  | a :: b :: _ => a == '\n' && b == '\r'
  | _ => false

/-- Python `line[-2:] == ["\r", "\n"]`: the last two buffered characters are
the CR LF terminator (the check of `_event_lines`). -/
def endsCRLF (cs : List Char) : Bool := endsCRLFrev cs.reverse

/-- The frame reader `_event_lines`: append each character to the buffer;
when the last two buffered characters are CR LF, emit the stripped buffer and
reset it.  A trailing partial line is discarded when the source ends. -/
def eventLines : List Char → List Char → List String
  | [], _ => []
  | c :: rest, buf =>
    let buf2 := buf ++ [c]
    if endsCRLF buf2 then pyStrip ⟨buf2⟩ :: eventLines rest []
    else eventLines rest buf2

/-- The two transport-library exception classes caught by `event_stream`
(`requests.RequestException`, `urllib3.exceptions.HTTPError`); the numeric
field distinguishes individual exception objects. -/
inductive TransportError where
  | requestException : Nat → TransportError
  | httpError : Nat → TransportError
deriving DecidableEq, Repr

/-- How the `event_stream` generator terminates.

* `ok` — the response body ended and the line loop finished normally;
* `errValue` — `int(line.split(":")[1])` raised `ValueError` on a malformed
  chunk-length header (uncaught: `ValueError` is not in the `except` clause);
* `errNext` — `next()` on an exhausted `iter_content` raised, which PEP 479
  turns into an uncaught `RuntimeError`;
* `errComm e` — a transport exception `e` was caught and re-raised as
  `CommError(e)`, preserving `e` as the cause;
* `hang` — `Content-Length: 0` makes `iter_content(chunk_size=0)` spin
  without producing a chunk (urllib3 `stream` never yields on empty reads). -/
inductive Term where
  | ok : Term
  | errValue : Term
  | errNext : Term
  | errComm : TransportError → Term
  | hang : Term
deriving DecidableEq, Repr

/-- Observable outcome of one `event_stream` iteration: the raw payload texts
yielded, in order, and how the generator terminated.  No record follows the
terminator. -/
structure StreamResult where
  payloads : List String
  term : Term
deriving DecidableEq, Repr

/-- Prefix one yielded payload onto a stream outcome. -/
def StreamResult.push (s : String) (r : StreamResult) : StreamResult :=
  ⟨s :: r.payloads, r.term⟩

/-- Terminal when the line loop sees the source end: clean end of iteration,
or the pending transport exception surfacing (caught and wrapped once). -/
def endTerm : Option TransportError → Term
  | none => Term.ok
  | some e => Term.errComm e

/-- Terminal for `next(ret.iter_content(...))` on an already-exhausted body:
the read raises the pending transport exception (wrapped into `CommError`),
or `StopIteration`/PEP 479 `RuntimeError` on a clean end. -/
def nextFail : Option TransportError → Term
  | none => Term.errNext
  | some e => Term.errComm e

/-- Outcome when the source ends in the middle of a chunk read: a pending
transport exception surfaces from the read (wrapped once into `CommError`);
otherwise a nonempty partial final chunk is yielded and iteration then ends
cleanly, while an empty read means `next()` raised (PEP 479 `RuntimeError`). -/
def chunkSourceEnd (acc : List Char) : Option TransportError → StreamResult
  | some e => ⟨[], Term.errComm e⟩
  | none =>
    if acc.isEmpty then ⟨[], Term.errNext⟩
    else ⟨[String.mk acc.reverse], Term.ok⟩

/-- Outcome of `iter_content` with a negative chunk size on a nonempty rest:
the underlying `read(amt)` with a negative amount consumes the entire
remaining body, which is yielded as one chunk; a pending transport exception
instead surfaces from the read. -/
def negRead (rest : List Char) : Option TransportError → StreamResult
  | some e => ⟨[], Term.errComm e⟩
  | none => ⟨[String.mk rest], Term.ok⟩

/-- State of the fused `event_stream` loop: scanning for a line (with the
`_event_lines` buffer), or consuming an announced chunk of `n` more
characters, with the already-read part accumulated in reverse. -/
inductive Mode where
  | lines : List Char → Mode
  | chunk : Nat → List Char → Mode

/-- The `Event.event_stream` framing loop, fused with `_event_lines` (both
generators read from the single shared stream position of the response).

In `lines` mode each character is appended to the buffer; on a CR LF suffix
the stripped buffer becomes the current line.  A line that fails the
case-insensitive `content-length:` test is discarded.  On a header line,
`int(line.split(":")[1])` is parsed; failure is an uncaught `ValueError`.
A positive count `n` switches to `chunk` mode, which reads exactly `n`
characters (fewer only at end of stream) and yields them as one payload,
after which line scanning resumes with an empty buffer.  A zero count makes
`iter_content` spin (`hang`); a negative count makes the underlying
`read(amt)` consume the whole remaining body, which is yielded as one chunk.
The optional `TransportError` is a transport exception the source raises
once its listed characters are exhausted. -/
def runS : List Char → Mode → Option TransportError → StreamResult
  | [], Mode.lines _, terr => ⟨[], endTerm terr⟩
  | [], Mode.chunk _ acc, terr => chunkSourceEnd acc terr
  | c :: rest, Mode.chunk n acc, terr =>
    if n ≤ 1 then (runS rest (Mode.lines []) terr).push (String.mk (c :: acc).reverse)
    else runS rest (Mode.chunk (n - 1) (c :: acc)) terr
  | c :: rest, Mode.lines buf, terr =>
    let buf2 := buf ++ [c]
    if endsCRLF buf2 then
      let line := pyStripChars buf2
      if isHeaderLine line then
        match pyIntC (splitColonSecond line) with
        | none => ⟨[], Term.errValue⟩
        | some n =>
          if 0 < n then runS rest (Mode.chunk n.toNat []) terr
          else if n = 0 then
            (if rest.isEmpty then ⟨[], nextFail terr⟩ else ⟨[], Term.hang⟩)
          else if rest.isEmpty then ⟨[], nextFail terr⟩
          else negRead rest terr
      else runS rest (Mode.lines []) terr
    else runS rest (Mode.lines buf2) terr

/-- The branch of `event_stream` taken once a complete line is in hand, as a
standalone function (used to state line-consumption lemmas). -/
def afterLine (line : List Char) (rest : List Char)
    (terr : Option TransportError) : StreamResult :=
  if isHeaderLine line then
    match pyIntC (splitColonSecond line) with
    | none => ⟨[], Term.errValue⟩
    | some n =>
      if 0 < n then runS rest (Mode.chunk n.toNat []) terr
      else if n = 0 then
        (if rest.isEmpty then ⟨[], nextFail terr⟩ else ⟨[], Term.hang⟩)
      else if rest.isEmpty then ⟨[], nextFail terr⟩
      else negRead rest terr
  else runS rest (Mode.lines []) terr

/-- Scan for the first `=` (the lazy key of `_REG_PARSE_KEY_VALUE`): returns
the characters before it (prepended to the reversed accumulator) and the
characters after it.  `.` does not match a newline, so a newline before the
`=` aborts the match. -/
def scanToEq : List Char → List Char → Option (List Char × List Char)
  | [], _ => none
  | c :: rest, acc =>
    if c = '=' then some (acc.reverse, rest)
    else if c = '\n' then none
    else scanToEq rest (c :: acc)

/-- The lazy value of `_REG_PARSE_KEY_VALUE` after its first character:
extend until a `;` (consumed, not part of the value), or until the end of
the input (`$`), or until a newline that is the final character (Python `$`
also matches just before a trailing newline).  A newline anywhere else
blocks the value. -/
def valueGo : List Char → List Char → Option (List Char × List Char)
  | [], acc => some (acc.reverse, [])
  | c :: rest, acc =>
    if c = ';' then some (acc.reverse, rest)
    else if c = '\n' then
      (if rest.isEmpty then some (acc.reverse, [c]) else none)
    else valueGo rest (c :: acc)

/-- The value part `(?P<value>.+?)(?:;|$)` of `_REG_PARSE_KEY_VALUE`: at
least one character (not a newline), then the lazy extension `valueGo`. -/
def valueScan : List Char → Option (List Char × List Char)
  | [] => none
  | c :: rest => if c = '\n' then none else valueGo rest [c]

/-- Key backtracking of `_REG_PARSE_KEY_VALUE`: when the value fails after
the current `=`, the lazy key extends across it to the next `=`.  The fuel
bounds the number of extensions (the remaining input length suffices). -/
def kvExtend : Nat → List Char → List Char →
    Option ((List Char × List Char) × List Char)
  | fuel, key, afterEq =>
    match valueScan afterEq with
    | some (v, rest) => some ((key, v), rest)
    | none =>
      match fuel with
      | 0 => none
      | fuel2 + 1 =>
        match scanToEq afterEq [] with
        | some (seg, after2) => kvExtend fuel2 (key ++ '=' :: seg) after2
        | none => none

/-- One anchored match of `_REG_PARSE_KEY_VALUE`, i.e. of
`(?P<key>.+?)(?:=)(?P<value>.+?)(?:;|$)`, starting exactly at the head:
lazy nonempty key up to the first `=` that admits a value, then the lazy
value.  Returns the key, the value and the input remaining after the match. -/
def kvMatch : List Char → Option ((List Char × List Char) × List Char)
  | [] => none
  | c :: rest =>
    if c = '\n' then none
    else
      match scanToEq rest [c] with
      | none => none
      | some (key, afterEq) => kvExtend afterEq.length key afterEq

/-- Python `re.findall` for `_REG_PARSE_KEY_VALUE`: leftmost nonoverlapping
matches; on failure the start position advances by one.  Each iteration
consumes at least one character, so fuel equal to the input length is
exact. -/
def kvFindAllF : Nat → List Char → List (List Char × List Char)
  | 0, _ => []
  | _, [] => []
  | fuel + 1, c :: rest =>
    match kvMatch (c :: rest) with
    | some (kv, after) => kv :: kvFindAllF fuel after
    | none => kvFindAllF fuel rest

/-- `re.findall(_REG_PARSE_KEY_VALUE, s)` as a list of (key, value) pairs. -/
def kvFindAll (cs : List Char) : List (List Char × List Char) :=
  kvFindAllF cs.length cs

/-- The quoted-token alternative `"[^"\\]*(?:\\.[^"\\]*)*"` of
`_REG_PARSE_MALFORMED_JSON`, after the opening quote: plain characters
other than quote and backslash, backslash escapes (whose escaped character
may not be a newline), until the closing quote.  Returns the whole token
including its quotes, and the rest.  Unterminated quotes fail. -/
def quotedScan : List Char → List Char → Option (List Char × List Char)
  | [], _ => none
  | c :: rest, acc =>
    if c = '"' then some ((c :: acc).reverse, rest)
    else if c = '\\' then
      match rest with
      | [] => none
      | d :: rest2 =>
        if d = '\n' then none else quotedScan rest2 (d :: c :: acc)
    else quotedScan rest (c :: acc)

/-- A quoted token starting at the head, or failure. -/
def matchQuoted : List Char → Option (List Char × List Char)
  | c :: rest => if c = '"' then quotedScan rest [c] else none
  | [] => none

/-- Greedy maximal run of the bare-token class `[^\s"]+` (possibly empty). -/
def bareSpan : List Char → List Char × List Char
  | [] => ([], [])
  | c :: rest =>
    if isPySpace c || c == '"' then ([], c :: rest)
    else
      let (r, s) := bareSpan rest
      (c :: r, s)

/-- The separator-and-value tail `\s:\s(?P<value>...)` of
`_REG_PARSE_MALFORMED_JSON`: exactly one whitespace character, a colon, one
whitespace character, then a value token that is either quoted or a nonempty
bare run (a bare token cannot start with a quote, so a failed quoted token
fails the value). -/
def sepValue (cs : List Char) : Option (List Char × List Char) :=
  match cs with
  | a :: b :: c :: rest =>
    if isPySpace a && (b == ':') && isPySpace c then
      match rest with
      | '"' :: _ => matchQuoted rest
      | _ =>
        match bareSpan rest with
        | ([], _) => none
        | (r :: rs, s) => some (r :: rs, s)
    else none
  | _ => none

/-- Backtracking over the greedy bare key of `_REG_PARSE_MALFORMED_JSON`:
try the key prefixes of the maximal run from longest to a single character,
each followed by `sepValue` on the unconsumed part. -/
def mjKeyTry : Nat → List Char → List Char →
    Option ((List Char × List Char) × List Char)
  | 0, _, _ => none
  | len + 1, run, rest0 =>
    let key := run.take (len + 1)
    let mid := run.drop (len + 1) ++ rest0
    match sepValue mid with
    | some (v, after) => some ((key, v), after)
    | none => mjKeyTry len run rest0

/-- One anchored match of `_REG_PARSE_MALFORMED_JSON` starting exactly at
the head: a quoted key (no backtracking possible on failure of the rest) or
a greedy backtracked bare key, then `\s:\s` and the value token. -/
def mjMatch : List Char → Option ((List Char × List Char) × List Char)
  | [] => none
  | c :: rest =>
    if c = '"' then
      match matchQuoted (c :: rest) with
      | none => none
      | some (key, rest2) =>
        match sepValue rest2 with
        | none => none
        | some (v, after) => some ((key, v), after)
    else if isPySpace c then none
    else
      match bareSpan (c :: rest) with
      | (run, rest0) => mjKeyTry run.length run rest0

/-- Python `re.findall` for `_REG_PARSE_MALFORMED_JSON`. -/
def mjFindAllF : Nat → List Char → List (List Char × List Char)
  | 0, _ => []
  | _, [] => []
  | fuel + 1, c :: rest =>
    match mjMatch (c :: rest) with
    | some (kv, after) => kv :: mjFindAllF fuel after
    | none => mjFindAllF fuel rest

/-- `re.findall(_REG_PARSE_MALFORMED_JSON, s)` as (key, value) token pairs,
quotes still included. -/
def mjFindAll (cs : List Char) : List (List Char × List Char) :=
  mjFindAllF cs.length cs

/-- Value stored in a decoded payload: a plain string, or, for the reserved
key `data`, the nested string-to-string mapping. -/
inductive PValue where
  | str : String → PValue
  | map : List (String × String) → PValue
deriving DecidableEq, Repr

/-- Python dict assignment `d[k] = v` on an insertion-ordered association
list: replace the value of an existing key in place, else append. -/
def insertKV {V : Type} : List (String × V) → String → V → List (String × V)
  | [], k, v => [(k, v)]
  | (k2, v2) :: rest, k, v =>
    if k2 = k then (k2, v) :: rest else (k2, v2) :: insertKV rest k v

/-- Python dict lookup `d[k]` (as an option; `none` models `KeyError`). -/
def lookupKV {V : Type} : List (String × V) → String → Option V
  | [], _ => none
  | (k2, v2) :: rest, k => if k2 = k then some v2 else lookupKV rest k

/-- The pairs of the `data` sub-parser before dict construction:
`re.findall(_REG_PARSE_MALFORMED_JSON, value)` with every double quote
removed from each key and each value (`str.replace` of a single character
with the empty string removes all its occurrences). -/
def dataPairs (cs : List Char) : List (String × String) :=
  (mjFindAll cs).map
    (fun p => (String.mk (p.1.filter (fun c => c ≠ '"')),
               String.mk (p.2.filter (fun c => c ≠ '"'))))

/-- The nested mapping built by the dict comprehension over the `data`
value in `event_actions`. -/
def buildDataMap (cs : List Char) : List (String × String) :=
  (dataPairs cs).foldl (fun d p => insertKV d p.1 p.2) []

/-- The top-level pairs of one payload text:
`_REG_PARSE_KEY_VALUE.findall(event_info.strip().replace("\n", ""))`. -/
def kvPairs (s : String) : List (String × String) :=
  (kvFindAll ((pyStripChars s.data).filter (fun c => c ≠ '\n'))).map
    (fun p => (String.mk p.1, String.mk p.2))

/-- The top-level pairs after the per-key processing of `event_actions`: the
value of the key `data` is re-parsed by the malformed-JSON sub-parser, every
other value is kept as a string. -/
def processedPairs (s : String) : List (String × PValue) :=
  (kvPairs s).map
    (fun p => (p.1, if p.1 = "data" then PValue.map (buildDataMap p.2.data)
                    else PValue.str p.2))

/-- The payload dict built by the loop of `event_actions` for one raw
payload text. -/
def buildPayload (s : String) : List (String × PValue) :=
  (processedPairs s).foldl (fun d p => insertKV d p.1 p.2) []

/-- One record of `event_actions`: the pair `(payload["Code"], payload)`, or
`none` when the payload lacks the `Code` key and the unguarded access raises
`KeyError`. -/
def recordOf (t : String) : Option (PValue × List (String × PValue)) :=
  (lookupKV (buildPayload t) "Code").map (fun v => (v, buildPayload t))

/-- The `event_actions` loop over the raw payload texts yielded by
`event_stream`: one record per text, halting with a `KeyError` (flag `true`)
at the first payload that lacks `Code`; texts after the failure produce
nothing. -/
def actionsRun : List String → List (PValue × List (String × PValue)) × Bool
  | [] => ([], false)
  | t :: ts =>
    match recordOf t with
    | none => ([], true)
    | some r =>
      match actionsRun ts with
      | (rs, e) => (r :: rs, e)

/-- The records yielded by `event_actions` when consuming the given decoded
character stream (with an optional pending transport error). -/
def eventActionsRecords (chars : List Char) (terr : Option TransportError) :
    List (PValue × List (String × PValue)) :=
  (actionsRun (runS chars (Mode.lines []) terr).payloads).1

/-- No adjacent CR LF pair occurs in the list (so line framing emits nothing
while these characters are consumed). -/
def noCRLF : List Char → Bool
  | a :: b :: rest => !(a == '\r' && b == '\n') && noCRLF (b :: rest)
  | _ => true

lemma noCRLF_tail {a : Char} {t : List Char} (h : noCRLF (a :: t) = true) :
    noCRLF t = true := by
  cases t with
  | nil => rfl
  | cons b r =>
    have h2 := h
    simp only [noCRLF, Bool.and_eq_true] at h2
    exact h2.2

lemma noCRLF_seam (xs ys : List Char) :
    noCRLF (xs ++ '\r' :: '\n' :: ys) = false := by
  induction xs with
  | nil => simp [noCRLF]
  | cons a xs ih =>
    cases xs with
    | nil =>
      have h0 : noCRLF ('\r' :: '\n' :: ys) = false := by simp [noCRLF]
      simp only [List.nil_append] at h0 ⊢
      simp [noCRLF, h0]
    | cons b xs2 =>
      simp only [List.cons_append] at ih ⊢
      simp [noCRLF, ih]

lemma endsCRLF_snoc_shape {buf : List Char} {c : Char}
    (h : endsCRLF (buf ++ [c]) = true) :
    c = '\n' ∧ ∃ b, buf = b ++ ['\r'] := by
  unfold endsCRLF at h
  rw [List.reverse_append] at h
  simp only [List.reverse_singleton, List.singleton_append] at h
  cases hb : buf.reverse with
  | nil => rw [hb] at h; simp [endsCRLFrev] at h
  | cons b t =>
    rw [hb] at h
    simp only [endsCRLFrev, Bool.and_eq_true, beq_iff_eq] at h
    refine ⟨h.1, t.reverse, ?_⟩
    have hr := congrArg List.reverse hb
    simp only [List.reverse_reverse, List.reverse_cons] at hr
    rw [hr, h.2]

lemma endsCRLF_snoc_cr (xs : List Char) : endsCRLF (xs ++ ['\r']) = false := by
  unfold endsCRLF
  rw [List.reverse_append]
  simp only [List.reverse_singleton, List.singleton_append]
  cases xs.reverse with
  | nil => rfl
  | cons b t => simp [endsCRLFrev]

lemma endsCRLF_snoc_crlf (xs : List Char) :
    endsCRLF (xs ++ ['\r', '\n']) = true := by
  unfold endsCRLF
  rw [List.reverse_append]
  rfl

/-- While the consumed characters complete no CR LF pair, `event_stream`
only accumulates them into the line buffer. -/
lemma runS_lines_extend (l : List Char) :
    ∀ (buf rest : List Char) (terr : Option TransportError),
      noCRLF (buf ++ l) = true →
      runS (l ++ rest) (Mode.lines buf) terr
        = runS rest (Mode.lines (buf ++ l)) terr := by
  induction l with
  | nil => intro buf rest terr _; simp
  | cons c l ih =>
    intro buf rest terr h
    have hassoc : buf ++ c :: l = (buf ++ [c]) ++ l := by simp
    have hfalse : endsCRLF (buf ++ [c]) = false := by
      cases hE : endsCRLF (buf ++ [c]) with
      | false => rfl
      | true =>
        obtain ⟨hc, b, hb⟩ := endsCRLF_snoc_shape hE
        rw [hb, hc] at h
        have : b ++ ['\r'] ++ '\n' :: l = b ++ '\r' :: '\n' :: l := by simp
        rw [this, noCRLF_seam] at h
        exact absurd h (by simp)
    show runS (c :: (l ++ rest)) (Mode.lines buf) terr = _
    simp only [runS, hfalse, Bool.false_eq_true, if_false]
    rw [ih (buf ++ [c]) rest terr (by rw [← hassoc]; exact h)]
    rw [← hassoc]

/-- Consuming the CR LF pair completes the buffered line: `event_stream`
strips the buffer and dispatches on the resulting line. -/
lemma runS_crlf (B rest : List Char) (terr : Option TransportError) :
    runS ('\r' :: '\n' :: rest) (Mode.lines B) terr
      = afterLine (pyStripChars (B ++ ['\r', '\n'])) rest terr := by
  have h1 : endsCRLF (B ++ ['\r']) = false := endsCRLF_snoc_cr B
  have h2 : endsCRLF (B ++ ['\r', '\n']) = true := endsCRLF_snoc_crlf B
  rw [runS.eq_4, if_neg (by rw [h1]; simp)]
  rw [runS.eq_4]
  have hassoc : B ++ ['\r'] ++ ['\n'] = B ++ ['\r', '\n'] := by simp
  rw [hassoc, if_pos h2, afterLine]

/-- One character of an announced chunk with more than one character still
due is consumed into the accumulator. -/
lemma runS_chunk_step (c : Char) (rest acc : List Char) (n : Nat)
    (terr : Option TransportError) (h : 1 < n) :
    runS (c :: rest) (Mode.chunk n acc) terr
      = runS rest (Mode.chunk (n - 1) (c :: acc)) terr := by
  rw [runS.eq_3, if_neg (by omega)]

/-- The final character of an announced chunk completes the payload and
returns the loop to line scanning with an empty buffer. -/
lemma runS_chunk_last (c : Char) (rest acc : List Char)
    (terr : Option TransportError) :
    runS (c :: rest) (Mode.chunk 1 acc) terr
      = (runS rest (Mode.lines []) terr).push (String.mk (c :: acc).reverse) := by
  rw [runS.eq_3, if_pos (by omega)]

/-- Reading an announced chunk consumes exactly the announced number of
characters from the shared stream, yields them (after the already-buffered
part) as one payload, and returns to line scanning with an empty buffer. -/
lemma runS_chunk_consume (p : List Char) :
    ∀ (acc rest : List Char) (terr : Option TransportError), p ≠ [] →
      runS (p ++ rest) (Mode.chunk p.length acc) terr
        = (runS rest (Mode.lines []) terr).push (String.mk (acc.reverse ++ p)) := by
  induction p with
  | nil => intro acc rest terr hne; exact absurd rfl hne
  | cons c p ih =>
    intro acc rest terr _
    cases p with
    | nil =>
      show runS (c :: rest) (Mode.chunk 1 acc) terr = _
      rw [runS_chunk_last]
      simp [List.reverse_cons]
    | cons d p2 =>
      have hstep : runS ((c :: d :: p2) ++ rest)
          (Mode.chunk (c :: d :: p2).length acc) terr
          = runS ((d :: p2) ++ rest) (Mode.chunk (d :: p2).length (c :: acc)) terr := by
        rw [List.cons_append,
          runS_chunk_step _ _ _ _ _ (by simp only [List.length_cons]; omega)]
        simp
      rw [hstep, ih (c :: acc) rest terr (by simp)]
      simp [List.reverse_cons, List.append_assoc]

lemma dropWhile_append_nil {p : Char → Bool} {xs : List Char}
    (h : xs.dropWhile p = []) (ys : List Char) :
    (xs ++ ys).dropWhile p = ys.dropWhile p := by
  induction xs with
  | nil => simp
  | cons a xs ih =>
    by_cases hp : p a
    · rw [List.cons_append, List.dropWhile_cons_of_pos hp]
      rw [List.dropWhile_cons_of_pos hp] at h
      exact ih h
    · rw [List.dropWhile_cons_of_neg hp] at h
      exact absurd h (by simp)

lemma dropWhile_append_cons {p : Char → Bool} {xs : List Char} {c : Char}
    {t : List Char} (h : xs.dropWhile p = c :: t) (ys : List Char) :
    (xs ++ ys).dropWhile p = c :: (t ++ ys) := by
  induction xs with
  | nil => simp at h
  | cons a xs ih =>
    by_cases hp : p a
    · rw [List.cons_append, List.dropWhile_cons_of_pos hp]
      rw [List.dropWhile_cons_of_pos hp] at h
      exact ih h
    · rw [List.dropWhile_cons_of_neg hp] at h
      obtain ⟨rfl, rfl⟩ : a = c ∧ xs = t := by
        have h1 := List.cons.injEq a xs c t ▸ h
        exact ⟨by injection h, by injection h⟩
      rw [List.cons_append, List.dropWhile_cons_of_neg hp]

/-- Stripping is unaffected by the CR LF terminator at the end of the
buffer: the emitted line of `_event_lines` is the stripped line content. -/
lemma pyStripChars_crlf (xs : List Char) :
    pyStripChars (xs ++ ['\r', '\n']) = pyStripChars xs := by
  unfold pyStripChars
  cases h : xs.dropWhile isPySpace with
  | nil =>
    rw [dropWhile_append_nil h]
    decide
  | cons c t =>
    rw [dropWhile_append_cons h]
    have hrev : (c :: (t ++ ['\r', '\n'])).reverse
        = '\n' :: '\r' :: (c :: t).reverse := by simp
    rw [hrev]
    rw [List.dropWhile_cons_of_pos (by decide), List.dropWhile_cons_of_pos (by decide)]

/-- A complete line that is not a chunk header is discarded: the framing
loop yields nothing for it and continues scanning. -/
lemma runS_junk_line (j rest : List Char) (terr : Option TransportError)
    (hnc : noCRLF j = true)
    (hnh : isHeaderLine (pyStripChars j) = false) :
    runS (j ++ '\r' :: '\n' :: rest) (Mode.lines []) terr
      = runS rest (Mode.lines []) terr := by
  rw [runS_lines_extend j [] ('\r' :: '\n' :: rest) terr (by simpa using hnc)]
  rw [List.nil_append, runS_crlf, pyStripChars_crlf, afterLine, hnh]
  simp

/-- A complete chunk-header line announcing exactly the length of the
following characters makes the loop read them by count and yield them as
one payload, regardless of their content. -/
lemma runS_header_line (hline p rest : List Char) (terr : Option TransportError)
    (hnc : noCRLF hline = true)
    (hh : isHeaderLine (pyStripChars hline) = true)
    (hn : pyIntC (splitColonSecond (pyStripChars hline)) = some (p.length : Int))
    (hp : p ≠ []) :
    runS (hline ++ '\r' :: '\n' :: (p ++ rest)) (Mode.lines []) terr
      = (runS rest (Mode.lines []) terr).push (String.mk p) := by
  rw [runS_lines_extend hline [] ('\r' :: '\n' :: (p ++ rest)) terr (by simpa using hnc)]
  rw [List.nil_append, runS_crlf, pyStripChars_crlf, afterLine, hh]
  simp only [if_true]
  simp only [hn]
  have hpos : (0 : Int) < (p.length : Int) := by
    have : 0 < p.length := List.length_pos.mpr hp
    exact_mod_cast this
  rw [if_pos hpos]
  have htn : ((p.length : Int)).toNat = p.length := Int.toNat_natCast p.length
  rw [htn, runS_chunk_consume p [] rest terr hp]
  simp

/-- One chunk of the wire format: boundary/noise lines, then a
`Content-Length` header line, then the payload characters (read by count,
never line-framed). -/
structure Chunk where
  junk : List (List Char)
  header : List Char
  payload : List Char

/-- Serialise CRLF-terminated lines. -/
def catLines : List (List Char) → List Char
  | [] => []
  | l :: ls => l ++ '\r' :: '\n' :: catLines ls

/-- Serialise one chunk: junk lines, header line, then the raw payload. -/
def serializePart (p : Chunk) : List Char :=
  catLines p.junk ++ p.header ++ '\r' :: '\n' :: p.payload

/-- Serialise a whole chunk sequence. -/
def serializeParts : List Chunk → List Char
  | [] => []
  | p :: ps => serializePart p ++ serializeParts ps

/-- Well-formedness of one chunk, following the spec's description of a
well-formed stream: junk lines contain no CR LF and are not chunk headers;
the header line contains no CR LF, passes the case-insensitive
`content-length:` test and parses to exactly the payload's length; the
payload is nonempty; and the decoded payload carries a `Code` key. -/
def partWF (p : Chunk) : Prop :=
  (∀ j ∈ p.junk, noCRLF j = true ∧ isHeaderLine (pyStripChars j) = false) ∧
  noCRLF p.header = true ∧
  isHeaderLine (pyStripChars p.header) = true ∧
  pyIntC (splitColonSecond (pyStripChars p.header)) = some (p.payload.length : Int) ∧
  p.payload ≠ [] ∧
  (lookupKV (buildPayload (String.mk p.payload)) "Code").isSome = true

instance (p : Chunk) : Decidable (partWF p) := by
  unfold partWF
  infer_instance

/-- Junk lines before a header are each discarded by the framing loop. -/
lemma runS_junk_lines (js : List (List Char)) (rest : List Char)
    (terr : Option TransportError)
    (hj : ∀ j ∈ js, noCRLF j = true ∧ isHeaderLine (pyStripChars j) = false) :
    runS (catLines js ++ rest) (Mode.lines []) terr
      = runS rest (Mode.lines []) terr := by
  induction js with
  | nil => rfl
  | cons j js ih =>
    have hjj := hj j (by simp)
    have hrec : ∀ j2 ∈ js, noCRLF j2 = true ∧ isHeaderLine (pyStripChars j2) = false :=
      fun j2 hm => hj j2 (by simp [hm])
    show runS ((j ++ '\r' :: '\n' :: catLines js) ++ rest) (Mode.lines []) terr = _
    rw [List.append_assoc, List.cons_append, List.cons_append]
    rw [runS_junk_line j (catLines js ++ rest) terr hjj.1 hjj.2]
    exact ih hrec

/-- A well-formed chunk sequence yields exactly one payload per chunk, the
payload characters themselves, and the stream then ends cleanly. -/
lemma runS_serialize (ps : List Chunk) (hwf : ∀ p ∈ ps, partWF p) :
    runS (serializeParts ps) (Mode.lines []) none
      = ⟨ps.map (fun p => String.mk p.payload), Term.ok⟩ := by
  induction ps with
  | nil => rfl
  | cons p ps ih =>
    have hp := hwf p (by simp)
    obtain ⟨hj, hnc, hh, hn, hne, _⟩ := hp
    have hrec : ∀ q ∈ ps, partWF q := fun q hm => hwf q (by simp [hm])
    show runS ((catLines p.junk ++ p.header ++ '\r' :: '\n' :: p.payload)
        ++ serializeParts ps) (Mode.lines []) none = _
    rw [List.append_assoc, List.append_assoc]
    rw [runS_junk_lines p.junk _ none hj]
    have hshape : (('\r' :: '\n' :: p.payload) ++ serializeParts ps)
        = '\r' :: '\n' :: (p.payload ++ serializeParts ps) := by simp
    rw [hshape]
    rw [runS_header_line p.header p.payload (serializeParts ps) none hnc hh hn hne]
    rw [ih hrec]
    rfl

lemma endsCRLF_snoc_iff (xs : List Char) (c : Char) :
    endsCRLF (xs ++ [c]) = true ↔ (c = '\n' ∧ xs.getLast? = some '\r') := by
  unfold endsCRLF
  rw [List.reverse_append]
  simp only [List.reverse_singleton, List.singleton_append]
  rw [← List.head?_reverse]
  cases hx : xs.reverse with
  | nil => simp [endsCRLFrev]
  | cons b t => simp [endsCRLFrev, Bool.and_eq_true, beq_iff_eq, And.comm]

lemma noCRLF_snoc_of : ∀ (xs : List Char) (c : Char), noCRLF xs = true →
    endsCRLF (xs ++ [c]) = false → noCRLF (xs ++ [c]) = true := by
  intro xs
  induction xs with
  | nil => intro c _ _; rfl
  | cons a xs ih =>
    intro c h1 h2
    cases xs with
    | nil =>
      have hne : ¬(c = '\n' ∧ [a].getLast? = some '\r') := by
        intro hcontra
        rw [(endsCRLF_snoc_iff [a] c).mpr hcontra] at h2
        exact absurd h2 (by simp)
      simp only [List.getLast?_singleton, Option.some.injEq] at hne
      show noCRLF [a, c] = true
      simp only [noCRLF, Bool.and_eq_true, Bool.not_eq_true']
      constructor
      · by_cases ha : a = '\r'
        · by_cases hc : c = '\n'
          · exact absurd ⟨hc, ha⟩ hne
          · simp [ha, hc]
        · simp [ha]
      · trivial
    | cons b xs2 =>
      have h1a : noCRLF (b :: xs2) = true := noCRLF_tail h1
      have h1b : (a == '\r' && b == '\n') = false := by
        have := h1
        simp only [noCRLF, Bool.and_eq_true, Bool.not_eq_true'] at this
        exact this.1
      have h2b : endsCRLF ((b :: xs2) ++ [c]) = false := by
        cases hE : endsCRLF ((b :: xs2) ++ [c]) with
        | false => rfl
        | true =>
          obtain ⟨hc, hl⟩ := (endsCRLF_snoc_iff (b :: xs2) c).mp hE
          have : endsCRLF ((a :: b :: xs2) ++ [c]) = true := by
            refine (endsCRLF_snoc_iff (a :: b :: xs2) c).mpr ⟨hc, ?_⟩
            rw [List.getLast?_cons_cons]
            exact hl
          rw [this] at h2
          exact absurd h2 (by simp)
      have := ih c h1a h2b
      show noCRLF (a :: ((b :: xs2) ++ [c])) = true
      rw [List.cons_append] at this ⊢
      simp only [List.cons_append, noCRLF, Bool.and_eq_true, Bool.not_eq_true'] at this ⊢
      exact ⟨h1b, this⟩

/-- Prepend a character to the first segment of a split. -/
def consFirst (c : Char) : List (List Char) → List (List Char)
  | s :: ss => (c :: s) :: ss
  | [] => [[c]]

/-- Specification-level line splitting, stated in the spec's terms: cut the
character sequence at each (leftmost-first) occurrence of the two-character
sequence CR LF; the final element is the remainder after the last cut (the
partial trailing line, possibly empty). -/
def splitOnCRLF : List Char → List (List Char)
  | [] => [[]]
  | c :: rest =>
    match rest with
    | [] => [[c]]
    | d :: rest2 =>
      if c = '\r' ∧ d = '\n' then [] :: splitOnCRLF rest2
      else consFirst c (splitOnCRLF (d :: rest2))

lemma splitOnCRLF_ne_nil (cs : List Char) : splitOnCRLF cs ≠ [] := by
  induction cs with
  | nil => simp [splitOnCRLF]
  | cons c rest ih =>
    cases rest with
    | nil => simp [splitOnCRLF]
    | cons d rest2 =>
      rw [splitOnCRLF]
      by_cases h : c = '\r' ∧ d = '\n'
      · simp [h]
      · rw [if_neg h]
        cases hs : splitOnCRLF (d :: rest2) with
        | nil => exact absurd hs (by simpa using ih)
        | cons s ss => simp [consFirst]

lemma noCRLF_append_left {xs ys : List Char} (h : noCRLF (xs ++ ys) = true) :
    noCRLF xs = true := by
  induction xs with
  | nil => rfl
  | cons a xs ih =>
    cases xs with
    | nil => trivial
    | cons b xs2 =>
      simp only [List.cons_append, noCRLF, Bool.and_eq_true,
        Bool.not_eq_true'] at h ⊢
      exact ⟨h.1, ih (by simpa using h.2)⟩

/-- A CR LF right after a pair-free prefix is the leftmost one: the split
cuts exactly there. -/
lemma splitOnCRLF_seam (p : List Char) :
    ∀ rest, noCRLF p = true →
      splitOnCRLF (p ++ '\r' :: '\n' :: rest) = p :: splitOnCRLF rest := by
  induction p with
  | nil => intro rest _; rw [List.nil_append, splitOnCRLF]; simp
  | cons a p ih =>
    intro rest h
    cases p with
    | nil =>
      rw [List.singleton_append, splitOnCRLF]
      have : ¬(a = '\r' ∧ '\r' = '\n') := by simp
      rw [if_neg this]
      rw [show ('\r' :: '\n' :: rest) = ([] ++ '\r' :: '\n' :: rest) from rfl]
      rw [ih rest rfl]
      rfl
    | cons b p2 =>
      have hpair : ¬(a = '\r' ∧ b = '\n') := by
        intro hcontra
        simp only [noCRLF, Bool.and_eq_true, Bool.not_eq_true'] at h
        have := h.1
        rw [hcontra.1, hcontra.2] at this
        simp at this
      show splitOnCRLF (a :: ((b :: p2) ++ '\r' :: '\n' :: rest)) = _
      rw [splitOnCRLF.eq_def]
      simp only [List.cons_append]
      rw [if_neg hpair]
      rw [show (b :: (p2 ++ '\r' :: '\n' :: rest)) = ((b :: p2) ++ '\r' :: '\n' :: rest) from rfl]
      rw [ih rest (noCRLF_tail h)]
      rfl

/-- A pair-free sequence is a single (unterminated) segment. -/
lemma splitOnCRLF_of_noCRLF (p : List Char) (h : noCRLF p = true) :
    splitOnCRLF p = [p] := by
  induction p with
  | nil => rfl
  | cons a p ih =>
    cases p with
    | nil => rfl
    | cons b p2 =>
      have hpair : ¬(a = '\r' ∧ b = '\n') := by
        intro hcontra
        simp only [noCRLF, Bool.and_eq_true, Bool.not_eq_true'] at h
        have := h.1
        rw [hcontra.1, hcontra.2] at this
        simp at this
      rw [splitOnCRLF]
      rw [if_neg hpair]
      rw [ih (noCRLF_tail h)]
      rfl

/-- Refinement of the frame reader against the spec's description: the
emitted lines are exactly the CR-LF-delimited segments of the input (cut at
each leftmost CR LF), each stripped of the terminator and surrounding
whitespace, with the partial trailing segment discarded. -/
lemma eventLines_split : ∀ (cs buf : List Char), noCRLF buf = true →
    eventLines cs buf
      = ((splitOnCRLF (buf ++ cs)).dropLast).map (fun s => pyStrip ⟨s⟩) := by
  intro cs
  induction cs with
  | nil =>
    intro buf h
    rw [List.append_nil, splitOnCRLF_of_noCRLF buf h]
    rfl
  | cons c rest ih =>
    intro buf h
    cases hE : endsCRLF (buf ++ [c]) with
    | true =>
      obtain ⟨hc, b, hb⟩ := endsCRLF_snoc_shape hE
      have hbn : noCRLF b = true := noCRLF_append_left (hb ▸ h)
      have hseq : buf ++ c :: rest = b ++ '\r' :: '\n' :: rest := by
        rw [hb, hc]; simp
      rw [eventLines]
      simp only [hE, if_true]
      rw [hseq, splitOnCRLF_seam b rest hbn,
        List.dropLast_cons_of_ne_nil (splitOnCRLF_ne_nil rest),
        List.map_cons]
      have hhead : pyStrip ⟨buf ++ [c]⟩ = pyStrip ⟨b⟩ := by
        rw [hb, hc]
        show pyStrip ⟨(b ++ ['\r']) ++ ['\n']⟩ = pyStrip ⟨b⟩
        rw [List.append_assoc]
        show pyStrip ⟨b ++ ['\r', '\n']⟩ = pyStrip ⟨b⟩
        unfold pyStrip
        rw [pyStripChars_crlf]
      rw [hhead, ih [] rfl, List.nil_append]
    | false =>
      rw [eventLines]
      simp only [hE, Bool.false_eq_true, if_false]
      rw [ih (buf ++ [c]) (noCRLF_snoc_of buf c h hE)]
      rw [List.append_assoc, List.singleton_append]

/-- When every payload decodes with a `Code` key, `event_actions` yields
exactly one record per payload and no error occurs. -/
lemma actionsRun_all_some (ts : List String)
    (h : ∀ t ∈ ts, (recordOf t).isSome = true) :
    (actionsRun ts).1.length = ts.length ∧ (actionsRun ts).2 = false := by
  induction ts with
  | nil => exact ⟨rfl, rfl⟩
  | cons t ts ih =>
    have ht := h t (by simp)
    obtain ⟨r, hr⟩ := Option.isSome_iff_exists.mp ht
    have hrec := ih (fun u hm => h u (by simp [hm]))
    rw [actionsRun, hr]
    cases hA : actionsRun ts with
    | mk rs e =>
      rw [hA] at hrec
      simp only [List.length_cons]
      exact ⟨by rw [hrec.1], hrec.2⟩

/-- The `event_actions` loop halts with a `KeyError` at the first payload
lacking `Code`: records for earlier payloads are yielded, nothing after the
failing payload is. -/
lemma actionsRun_halt (ts : List String) (t : String) (ts2 : List String)
    (h : ∀ u ∈ ts, (recordOf u).isSome = true)
    (ht : recordOf t = none) :
    actionsRun (ts ++ t :: ts2) = ((actionsRun ts).1, true) := by
  induction ts with
  | nil =>
    rw [List.nil_append]
    simp [actionsRun, ht]
  | cons u ts ih =>
    have hu := h u (by simp)
    obtain ⟨r, hr⟩ := Option.isSome_iff_exists.mp hu
    have hrec := ih (fun v hm => h v (by simp [hm]))
    rw [List.cons_append]
    rw [actionsRun.eq_2, hr]
    simp only []
    rw [hrec, actionsRun.eq_2, hr]

/-- A transport exception pending at source exhaustion always surfaces as
exactly one `CommError` carrying it, provided the error-free run would have
terminated cleanly (so no uncaught `ValueError`, `RuntimeError` or hang
preempts it). -/
lemma runS_comm_error (e : TransportError) :
    ∀ (cs : List Char) (m : Mode),
      (runS cs m none).term = Term.ok →
      (runS cs m (some e)).term = Term.errComm e := by
  intro cs
  induction cs with
  | nil =>
    intro m h
    cases m with
    | lines buf => rfl
    | chunk n acc => rfl
  | cons c rest ih =>
    intro m h
    cases m with
    | chunk n acc =>
      by_cases hn : n ≤ 1
      · rw [runS.eq_3, if_pos hn] at h ⊢
        exact ih (Mode.lines []) h
      · rw [runS.eq_3, if_neg hn] at h ⊢
        exact ih (Mode.chunk (n - 1) (c :: acc)) h
    | lines buf =>
      rw [runS.eq_4] at h ⊢
      by_cases hE : endsCRLF (buf ++ [c]) = true
      · rw [if_pos hE] at h ⊢
        by_cases hH : isHeaderLine (pyStripChars (buf ++ [c])) = true
        · rw [if_pos hH] at h ⊢
          cases hI : pyIntC (splitColonSecond (pyStripChars (buf ++ [c]))) with
          | none =>
            rw [hI] at h
            simp only [] at h
            exact absurd h (by simp)
          | some n =>
            rw [hI] at h
            simp only [] at h ⊢
            by_cases hpos : 0 < n
            · rw [if_pos hpos] at h ⊢
              exact ih (Mode.chunk n.toNat []) h
            · rw [if_neg hpos] at h ⊢
              by_cases h0 : n = 0
              · rw [if_pos h0] at h ⊢
                by_cases hre : rest.isEmpty = true
                · rw [if_pos hre] at h ⊢
                  exact absurd h (by simp [nextFail])
                · rw [if_neg hre] at h
                  exact absurd h (by simp)
              · rw [if_neg h0] at h ⊢
                by_cases hre : rest.isEmpty = true
                · rw [if_pos hre] at h ⊢
                  exact absurd h (by simp [nextFail])
                · rw [if_neg hre] at h ⊢
                  rfl
        · rw [if_neg hH] at h ⊢
          exact ih (Mode.lines []) h
      · rw [if_neg hE] at h ⊢
        exact ih (Mode.lines (buf ++ [c])) h

lemma lookupKV_insertKV {V : Type} (d : List (String × V)) (k k2 : String) (v : V) :
    lookupKV (insertKV d k v) k2 = if k = k2 then some v else lookupKV d k2 := by
  induction d with
  | nil =>
    by_cases h : k = k2
    · simp [insertKV, lookupKV, h]
    · simp [insertKV, lookupKV, h]
  | cons q d ih =>
    cases q with
    | mk k3 v3 =>
      by_cases h3 : k3 = k
      · subst h3
        by_cases h : k3 = k2
        · simp [insertKV, lookupKV, h]
        · simp [insertKV, lookupKV, h]
      · by_cases h : k3 = k2
        · subst h
          have hne : ¬k = k3 := fun hc => h3 hc.symm
          simp [insertKV, lookupKV, h3, hne]
        · simp [insertKV, lookupKV, h3, h, ih]

lemma lookupKV_append {V : Type} (xs ys : List (String × V)) (k : String) :
    lookupKV (xs ++ ys) k
      = match lookupKV xs k with
        | some v => some v
        | none => lookupKV ys k := by
  induction xs with
  | nil => simp [lookupKV]
  | cons q xs ih =>
    cases q with
    | mk k3 v3 =>
      by_cases h : k3 = k
      · simp [lookupKV, h]
      · simp [lookupKV, h, ih]

/-- Looking up a key in the dict built by repeated assignment returns the
value of the key's last occurrence in the assignment sequence. -/
lemma lookupKV_foldl_insert {V : Type} (ps : List (String × V)) :
    ∀ (d : List (String × V)) (k : String),
      lookupKV (ps.foldl (fun d p => insertKV d p.1 p.2) d) k
        = match lookupKV ps.reverse k with
          | some v => some v
          | none => lookupKV d k := by
  induction ps with
  | nil => intro d k; simp [lookupKV]
  | cons p ps ih =>
    intro d k
    rw [List.foldl_cons, ih (insertKV d p.1 p.2) k]
    rw [List.reverse_cons, lookupKV_append]
    cases lookupKV ps.reverse k with
    | some v => simp
    | none =>
      simp only []
      rw [lookupKV_insertKV]
      by_cases h : p.1 = k
      · simp [lookupKV, h]
      · simp [lookupKV, h]

lemma mem_insertKV {V : Type} (d : List (String × V)) (k : String) (v : V)
    (p : String × V) (h : p ∈ insertKV d k v) : p = (k, v) ∨ p ∈ d := by
  induction d with
  | nil => simp [insertKV] at h; simp [h]
  | cons q d ih =>
    cases q with
    | mk k3 v3 =>
      by_cases h3 : k3 = k
      · subst h3
        simp only [insertKV, if_pos] at h
        rcases List.mem_cons.mp h with h | h
        · left; rw [h]
        · right; simp [h]
      · simp only [insertKV, if_neg h3] at h
        rcases List.mem_cons.mp h with h | h
        · right; simp [h]
        · rcases ih h with h2 | h2
          · left; exact h2
          · right; simp [h2]

lemma mem_foldl_insert {V : Type} (ps : List (String × V)) :
    ∀ (d : List (String × V)) (p : String × V),
      p ∈ ps.foldl (fun d q => insertKV d q.1 q.2) d → p ∈ d ∨ p ∈ ps := by
  induction ps with
  | nil => intro d p h; exact Or.inl h
  | cons q ps ih =>
    intro d p h
    rw [List.foldl_cons] at h
    cases ih (insertKV d q.1 q.2) p h with
    | inl h2 =>
      cases mem_insertKV d q.1 q.2 p h2 with
      | inl h3 => right; simp [h3]
      | inr h3 => left; exact h3
    | inr h2 => right; simp [h2]

/-- Claim C1: for every well-formed chunk sequence consumed by the event
stream, the number of event records yielded by `event_actions` (and of raw
payload texts yielded by `event_stream`) equals the number of lines that
case-insensitively start with `content-length:` and carry a valid integer
count — in a well-formed serialised sequence, exactly one such line per
chunk, while junk lines (which yield nothing) satisfy no header test. -/
theorem stream_record_count (ps : List Chunk) (hwf : ∀ p ∈ ps, partWF p) :
    runS (serializeParts ps) (Mode.lines []) none
        = ⟨ps.map (fun p => String.mk p.payload), Term.ok⟩ ∧
      (eventActionsRecords (serializeParts ps) none).length = ps.length := by
  have h1 := runS_serialize ps hwf
  refine ⟨h1, ?_⟩
  unfold eventActionsRecords
  rw [h1]
  have hall : ∀ t ∈ ps.map (fun p => String.mk p.payload),
      (recordOf t).isSome = true := by
    intro t ht
    obtain ⟨p, hp, rfl⟩ := List.mem_map.mp ht
    have hc := (hwf p hp).2.2.2.2.2
    unfold recordOf
    rw [Option.isSome_map']
    exact hc
  have h2 := actionsRun_all_some _ hall
  rw [h2.1, List.length_map]

/-- Concrete two-chunk stream with boundary noise used as the witness. -/
def wParts : List Chunk :=
  [⟨["--myboundary".data, "Content-Type: text/plain".data],
    "Content-Length: 6".data, "Code=A".data⟩,
   ⟨[[], "--myboundary".data],
    "conTENT-length:10".data, "Code=B;x=1".data⟩]

theorem stream_record_count_witness :
    (∀ p ∈ wParts, partWF p) ∧
      (eventActionsRecords (serializeParts wParts) none).length = 2 :=
  ⟨by decide, (stream_record_count wParts (by decide)).2⟩

/-- Claim C2: decoding the payload text
`Code=VideoMotion;action=Start;index=0;data="Object[0]" : "1"` with the
`event_actions` payload parser produces exactly the mapping
`{"Code": "VideoMotion", "action": "Start", "index": "0",
"data": {"Object[0]": "1"}}` (shown here in its insertion order), and the
yielded pair is `("VideoMotion",` that mapping`)`; moreover the `data`
sub-parser on the raw text `· "key one" : bareValue ·` yields
`{"key one": "bareValue"}`, quotes stripped. -/
theorem payload_roundtrip_decode :
    recordOf "Code=VideoMotion;action=Start;index=0;data=\"Object[0]\" : \"1\""
        = some (PValue.str "VideoMotion",
            [("Code", PValue.str "VideoMotion"),
             ("action", PValue.str "Start"),
             ("index", PValue.str "0"),
             ("data", PValue.map [("Object[0]", "1")])]) ∧
      buildDataMap " \"key one\" : bareValue ".data
        = [("key one", "bareValue")] :=
  ⟨by decide, by decide⟩

/-- Claim C3: for every decoded character sequence given to the frame
reader `_event_lines`, a line is emitted exactly at each CR LF suffix of the
buffer: the output equals the CR-LF-delimited segments of the input, each
stripped of the terminator and surrounding whitespace, and when the source
is exhausted with no trailing CR LF the sequence simply ends, the partial
trailing segment silently discarded. -/
theorem frame_reader_crlf_framing (cs : List Char) :
    eventLines cs []
      = ((splitOnCRLF cs).dropLast).map (fun s => pyStrip ⟨s⟩) :=
  eventLines_split cs [] rfl

/-- Claim C4: after recognising a chunk header announcing length `n`, the
decoder reads exactly `n` decoded characters directly from the streaming
body — by count, not through the line reader — and yields that slice as the
raw payload text, independent of whatever (arbitrary, possibly non-header)
characters follow. -/
theorem chunk_read_by_count (hline rest : List Char) (n : Nat)
    (terr : Option TransportError)
    (hnc : noCRLF hline = true)
    (hh : isHeaderLine (pyStripChars hline) = true)
    (hn : pyIntC (splitColonSecond (pyStripChars hline)) = some (n : Int))
    (hpos : 0 < n) (hlen : n ≤ rest.length) :
    runS (hline ++ '\r' :: '\n' :: rest) (Mode.lines []) terr
      = (runS (rest.drop n) (Mode.lines []) terr).push
          (String.mk (rest.take n)) := by
  have hsplit : rest = rest.take n ++ rest.drop n := (List.take_append_drop n rest).symm
  have hlen2 : (rest.take n).length = n := List.length_take_of_le hlen
  have hne : rest.take n ≠ [] := by
    intro hcontra
    rw [hcontra] at hlen2
    simp at hlen2
    omega
  calc runS (hline ++ '\r' :: '\n' :: rest) (Mode.lines []) terr
      = runS (hline ++ '\r' :: '\n' :: (rest.take n ++ rest.drop n))
          (Mode.lines []) terr := by rw [← hsplit]
    _ = (runS (rest.drop n) (Mode.lines []) terr).push
          (String.mk (rest.take n)) := by
        rw [runS_header_line hline (rest.take n) (rest.drop n) terr hnc hh
          (by rw [hlen2]; exact hn) hne]

theorem chunk_read_by_count_witness :
    noCRLF "Content-Length: 5".data = true ∧
      isHeaderLine (pyStripChars "Content-Length: 5".data) = true ∧
      pyIntC (splitColonSecond (pyStripChars "Content-Length: 5".data))
        = some (5 : Int) ∧
      (5 : Nat) ≤ "hello--junk\r\nxyz".data.length ∧
      runS ("Content-Length: 5".data ++ '\r' :: '\n' :: "hello--junk\r\nxyz".data)
          (Mode.lines []) none
        = (runS ("hello--junk\r\nxyz".data.drop 5) (Mode.lines []) none).push
            (String.mk ("hello--junk\r\nxyz".data.take 5)) :=
  ⟨by decide, by decide, by decide, by decide,
    chunk_read_by_count "Content-Length: 5".data "hello--junk\r\nxyz".data 5
      none (by decide) (by decide) (by decide) (by decide) (by decide)⟩

/-- Claim C5: for every decoded payload mapping that lacks a `Code` key,
`event_actions` fails with a protocol error — the unguarded `payload["Code"]`
raises `KeyError` rather than silently skipping — and the record sequence
halts there: records for the earlier payloads are yielded, nothing for the
failing payload or for any payload after it. -/
theorem missing_code_halts (ts : List String) (t : String) (ts2 : List String)
    (h : ∀ u ∈ ts, (recordOf u).isSome = true)
    (ht : lookupKV (buildPayload t) "Code" = none) :
    actionsRun (ts ++ t :: ts2) = ((actionsRun ts).1, true) := by
  apply actionsRun_halt ts t ts2 h
  unfold recordOf
  rw [ht]
  rfl

theorem missing_code_halts_witness :
    (∀ u ∈ ["Code=A"], (recordOf u).isSome = true) ∧
      lookupKV (buildPayload "index=1;x=2") "Code" = none ∧
      actionsRun (["Code=A"] ++ "index=1;x=2" :: ["Code=B"])
        = ((actionsRun ["Code=A"]).1, true) :=
  ⟨by decide, by decide,
    missing_code_halts ["Code=A"] "index=1;x=2" ["Code=B"] (by decide) (by decide)⟩

/-- Modelled from the spec's words, for comparison in claim C6: "parse the
substring after the colon as a non-negative integer" — optional surrounding
whitespace, then a nonempty run of decimal digits (hence a non-negative
value), nothing else.  A negative literal such as `-5` does not parse. -/
def specParsesNonNegInt (cs : List Char) : Bool :=
  match pyDigits (pyStripChars cs) with
  | some _ => true
  | none => false

/-- Counterexample to claim C6 as stated: the line `Content-Length:-5`
case-insensitively starts with `content-length:` and its substring after
the colon does not parse as a non-negative integer, yet the framing loop
raises no error at all: Python `int` accepts the sign, the negative count
reaches `iter_content`, whose underlying negative-amount `read` consumes
the whole remaining body, and a record is yielded with the stream ending
cleanly. -/
theorem header_negative_count_no_error :
    isHeaderLine (pyStripChars "Content-Length:-5".data) = true ∧
      specParsesNonNegInt (splitColonSecond (pyStripChars "Content-Length:-5".data))
        = false ∧
      runS ("Content-Length:-5".data ++ '\r' :: '\n' :: "abc".data)
          (Mode.lines []) none
        = ⟨["abc"], Term.ok⟩ :=
  ⟨by decide, by decide, by decide⟩

/-- Claim C6 (amended): for every header-prefixed line whose substring after
the first colon fails Python's `int` parse — which accepts an optional sign,
so genuinely negative counts like `-5` are accepted and passed on to the
chunk read instead of raising — the framing loop fails with an uncaught
`ValueError`, yielding no record for that line and nothing afterwards. -/
theorem malformed_header_int_error (hline rest : List Char)
    (terr : Option TransportError)
    (hnc : noCRLF hline = true)
    (hh : isHeaderLine (pyStripChars hline) = true)
    (hn : pyIntC (splitColonSecond (pyStripChars hline)) = none) :
    runS (hline ++ '\r' :: '\n' :: rest) (Mode.lines []) terr
      = ⟨[], Term.errValue⟩ := by
  rw [runS_lines_extend hline [] _ terr (by simpa using hnc), List.nil_append,
    runS_crlf, pyStripChars_crlf, afterLine, hh]
  simp only [if_true, hn]

theorem malformed_header_int_error_witness :
    noCRLF "Content-Length: xyz".data = true ∧
      isHeaderLine (pyStripChars "Content-Length: xyz".data) = true ∧
      pyIntC (splitColonSecond (pyStripChars "Content-Length: xyz".data)) = none ∧
      runS ("Content-Length: xyz".data ++ '\r' :: '\n' :: "abc".data)
          (Mode.lines []) none
        = ⟨[], Term.errValue⟩ :=
  ⟨by decide, by decide, by decide,
    malformed_header_int_error "Content-Length: xyz".data "abc".data none
      (by decide) (by decide) (by decide)⟩

/-- Claim C7: a transport-layer exception (`RequestException` or `HTTPError`)
raised by the source while the stream is being iterated is observed by the
caller as exactly one unified `CommError` carrying the original exception as
its cause, and the sequence produces no further records after it (the
terminal of a `StreamResult` follows all of its records).  The hypothesis
restricts to streams whose error-free run terminates cleanly, so no other
uncaught exception preempts the transport error. -/
theorem transport_error_single_comm (cs : List Char) (e : TransportError)
    (h : (runS cs (Mode.lines []) none).term = Term.ok) :
    (runS cs (Mode.lines []) (some e)).term = Term.errComm e :=
  runS_comm_error e cs (Mode.lines []) h

theorem transport_error_single_comm_witness :
    (runS "junk\r\nContent-Length: 2\r\nab".data (Mode.lines []) none).term
        = Term.ok ∧
      (runS "junk\r\nContent-Length: 2\r\nab".data (Mode.lines [])
          (some (TransportError.requestException 7))).term
        = Term.errComm (TransportError.requestException 7) :=
  ⟨by decide,
    transport_error_single_comm "junk\r\nContent-Length: 2\r\nab".data
      (TransportError.requestException 7) (by decide)⟩

/-- Claim C9: when the same key occurs more than once in one payload text —
at the top level as repeated `key=value` pairs, or inside the `data` blob —
the decoded mapping contains the value of the last occurrence (looking a key
up in the built dict equals looking it up in the reversed pair sequence, i.e.
latest assignment first); earlier occurrences are overwritten, not rejected
and not kept. -/
theorem duplicate_keys_last_wins :
    (∀ (s : String) (k : String),
        lookupKV (buildPayload s) k = lookupKV (processedPairs s).reverse k) ∧
      (∀ (cs : List Char) (k : String),
        lookupKV (buildDataMap cs) k = lookupKV (dataPairs cs).reverse k) := by
  constructor
  · intro s k
    unfold buildPayload
    rw [lookupKV_foldl_insert]
    cases lookupKV (processedPairs s).reverse k <;> rfl
  · intro cs k
    unfold buildDataMap
    rw [lookupKV_foldl_insert]
    cases lookupKV (dataPairs cs).reverse k <;> rfl

/-- Claim C10: in the `data` sub-parser of `event_actions`, every double
quote character is removed from both keys and values of the nested mapping —
not only a surrounding quote pair and not only on keys — so a quoted token
containing a backslash-escaped interior quote loses that quote character too
(the backslash itself survives). -/
theorem data_quotes_removed (cs : List Char) (p : String × String)
    (hp : p ∈ buildDataMap cs) :
    '"' ∉ p.1.data ∧ '"' ∉ p.2.data := by
  rcases mem_foldl_insert (dataPairs cs) [] p hp with h | h
  · simp at h
  · unfold dataPairs at h
    obtain ⟨q, _, rfl⟩ := List.mem_map.mp h
    constructor
    · intro hc
      have := List.of_mem_filter hc
      simp at this
    · intro hc
      have := List.of_mem_filter hc
      simp at this

theorem data_quotes_removed_witness :
    ("a\\b", "x") ∈ buildDataMap "\"a\\\"b\" : x".data ∧
      '"' ∉ ("a\\b" : String).data ∧ '"' ∉ ("x" : String).data :=
  ⟨by decide,
    (data_quotes_removed "\"a\\\"b\" : x".data ("a\\b", "x") (by decide)).1,
    (data_quotes_removed "\"a\\\"b\" : x".data ("a\\b", "x") (by decide)).2⟩
